import Mathlib

/-!
Verification of the fragRebSim repository: a shallow embedding of its three
modules (`dMdEdist.py`, `forces.py`, `otherintegrator.py`) and proofs about
the behaviour its specification describes.

Modelling conventions.  Machine floats are modelled as `ℚ`; the transcendental
functions the source calls (`np.log` in `logterm`, `math.sqrt` in the bound
velocity check) enter as explicit function parameters, so every definition
stays computable and no property proved below depends on their values.
Python lists are Lean lists; Python's negative-index wrap-around together with
`IndexError` is modelled by `pyGet`/`pyPop`/`pyModify` returning `Option`, and
a `next(...)` that can raise `StopIteration` is modelled by `List.findIdx?`.
Values the source draws from `random` or obtains from the `funcs` module
(absent from the repository: `mstar_dist`, `rstar_func`, `r_tidal`,
`beta_dist`) enter as parameters of the operations that use them.
-/

namespace FragRebSim

/-! ## dMdEdist.py -/

/-- Model of `np.linspace a b num`: `num` evenly spaced samples from `a` to
`b` inclusive; `num = 1` gives `[a]` and `num = 0` gives the empty array. -/
def linspace (a b : ℚ) (num : Nat) : List ℚ :=
  if num = 0 then []
  else if num = 1 then [a]
  else (List.range num).map (fun i : Nat => a + (b - a) * (i : ℚ) / ((num : ℚ) - 1))

/-- Block-coarsening loop of `dMdEdist_init` (lines 44-51): for
`i in range(n / step)` it sums the slice `x[step*i : step*i + step - 1]` --
which holds `step - 1` elements, indices `step*i .. step*i + step - 2` --
and divides by `float(step)`.  `n / step` is Python-2 integer division. -/
def coarsen (step : Nat) (x : List ℚ) : List ℚ :=
  (List.range (x.length / step)).map
    (fun i => ((x.drop (step * i)).take (step - 1)).sum / (step : ℚ))

/-- Model of `np.cumsum`: the list of partial sums, same length as the input. -/
def cumsum (l : List ℚ) : List ℚ := (l.scanl (· + ·) 0).tail

/-- Remainder of the per-file build (lines 44-57) applied to the filtered
density coordinate `y`: coarsen, append the implicit origin `0.0`, reverse to
ascending order and normalise the cumulative sum by its maximum,
`CDE = np.cumsum(p_s) / max(np.cumsum(p_s))`.  After the reverse the first
element of `p_s` is the appended `0.0`, so the first partial sum is `0` and
folding `max` with initial value `0` agrees with `np.max` here. -/
def buildCDE (y : List ℚ) : List ℚ :=
  let p_s := (coarsen 10 y ++ [0]).reverse
  let c := cumsum p_s
  c.map (fun v => v / c.foldr max 0)

/-- Model of `diffs.argsort()` (`np.argsort`): the indices `0 .. n-1` sorted
by their value in `l`.  `np.argsort`'s order among equal values is
unspecified; none of the properties proved below depends on the tie order. -/
def argsort (l : List ℚ) : List Nat :=
  @List.insertionSort Nat (fun a b => l.getD a 0 ≤ l.getD b 0)
    (fun a b => inferInstanceAs (Decidable (l.getD a 0 ≤ l.getD b 0)))
    (List.range l.length)

/-- Weights of `beta_interp` at the two nearest table indices `i`, `j`:
with `d1 = diffs[i]`, `d2 = diffs[j]` and `d = d1 + d2`, the source sets
`p1 = d2 / d` (weight of the nearest table) and `p2 = d1 / d`. -/
def blendWeights (betas : List ℚ) (beta : ℚ) (i j : Nat) : ℚ × ℚ :=
  let diffs := betas.map (fun b => |b - beta|)
  let d := diffs.getD i 0 + diffs.getD j 0
  (diffs.getD j 0 / d, diffs.getD i 0 / d)

/-- Model of `beta_interp(beta)` over the class-level tables
(`dMdEdist_init.betas`, `dMdEdist_init.functions`), taken as arguments.
`diffs.argsort()[:2]` needs at least two tables; with fewer the unpacking
`[i, j] = ...` fails, modelled by `none`.  Returns the blended interpolant
`f_new` and the two bracketing beta values, as the source's list
`[f_new, x1, x2]`. -/
def beta_interp (betas : List ℚ) (functions : List (ℚ → ℚ)) (beta : ℚ) :
    Option ((ℚ → ℚ) × ℚ × ℚ) :=
  let diffs := betas.map (fun b => |b - beta|)
  match argsort diffs with
  | i :: j :: _ =>
      let x1 := betas.getD i 0
      let x2 := betas.getD j 0
      let f1 := functions.getD i (fun _ => 0)
      let f2 := functions.getD j (fun _ => 0)
      some (fun x => (blendWeights betas beta i j).1 * f1 x
                   + (blendWeights betas beta i j).2 * f2 x, x1, x2)
  | _ => none

/-- Evaluation of the blended interpolant returned by `beta_interp` at `x`. -/
def blendApply (betas : List ℚ) (functions : List (ℚ → ℚ)) (beta x : ℚ) :
    Option ℚ :=
  (beta_interp betas functions beta).map (fun t => t.1 x)

/-- Sample points `x_set` of `energy_spread(beta, nfrag)` (lines 93-95):
`bin_size = 1.0 / nfrag`, `half = bin_size * 0.5`,
`x_set = np.linspace(half, 1.0 - half, nfrag - 1)`. -/
def energy_spread_points (nfrag : Nat) : List ℚ :=
  let bin_size : ℚ := 1 / (nfrag : ℚ)
  let half : ℚ := bin_size * (1 / 2)
  linspace half (1 - half) (nfrag - 1)

/-- Model of `energy_spread(beta, nfrag)`: the blended interpolant of
`beta_interp(beta)` applied to the sample points. -/
def energy_spread (betas : List ℚ) (functions : List (ℚ → ℚ)) (beta : ℚ)
    (nfrag : Nat) : Option (List ℚ) :=
  (beta_interp betas functions beta).map
    (fun t => (energy_spread_points nfrag).map t.1)

/-! ## forces.py -/

namespace sim_constants

/-- Source value `m_hole = 4.0e6`. -/
def m_hole : ℚ := 4000000

/-- Source value `m_halo = 1.0e12`. -/
def m_halo : ℚ := 1000000000000

/-- Source value `r_halo = 4.125e9` (AU). -/
def r_halo : ℚ := 4125000000

/-- Source value `rc = (1.0 * u.pc).to('AU').value`: the float value astropy
returns for one parsec in AU. -/
def rc : ℚ := 206264.80624709636

end sim_constants

/-- Model of `logterm(r) = np.log(1.0 + (r / sim_constants.r_halo))`; the
float logarithm `np.log` is passed in as `rlog`. -/
def logterm (rlog : ℚ → ℚ) (r : ℚ) : ℚ := rlog (1 + r / sim_constants.r_halo)

/-- Model of `rterm(r) = (r + sim_constants.r_halo) * (r**2)`. -/
def rterm (r : ℚ) : ℚ := (r + sim_constants.r_halo) * r ^ 2

/-- Model of `halo_force(r, coord)` (lines 70-77): `halo_scale` is `0` for
`r < 10*sim_constants.rc` and `1` otherwise, and the returned value is
`-halo_scale * m_halo * coord * ((logterm(r) / r**3) - (1.0 / rterm(r)))`. -/
def halo_force (rlog : ℚ → ℚ) (r coord : ℚ) : ℚ :=
  let halo_scale : ℚ := if r < 10 * sim_constants.rc then 0 else 1;
  -halo_scale * sim_constants.m_halo * coord *
    (logterm rlog r / r ^ 3 - 1 / rterm r)

/-! ## otherintegrator.py: state and Python list primitives -/

/-- Model of a rebound particle; the source sets `m, x, y, z, vx, vy, vz`
when injecting fragments with `reb_sim.add`. -/
structure Particle where
  m : ℚ
  x : ℚ
  y : ℚ
  z : ℚ
  vx : ℚ
  vy : ℚ
  vz : ℚ
  deriving DecidableEq

/-- Python `l[k]` with negative-index wrap-around; `none` models
`IndexError`. -/
def pyGet {α : Type} (l : List α) (k : Int) : Option α :=
  let j := if k < 0 then k + l.length else k;
  if 0 ≤ j then l[j.toNat]? else none

/-- Python `l.pop(k)` with negative-index wrap-around, keeping the remaining
list (the popped element itself is unused by the source); `none` models
`IndexError`. -/
def pyPop {α : Type} (l : List α) (k : Int) : Option (List α) :=
  let j := if k < 0 then k + l.length else k;
  if 0 ≤ j ∧ j < (l.length : Int) then some (l.eraseIdx j.toNat) else none

/-- In-place mutation of the Python list element `l[k]` by a fallible `f`,
with negative-index wrap-around; `none` models an `IndexError` from the
lookup or from `f`. -/
def pyModify {α : Type} (l : List α) (k : Int) (f : α → Option α) :
    Option (List α) :=
  match pyGet l k with
  | none => none
  | some a =>
      (f a).map (fun b => l.set (if k < 0 then (k + l.length).toNat else k.toNat) b)

/-- Combined state of a `RebSimIntegrator` instance and the rebound
simulation it drives: `particles` is `reb_sim.particles` (index 0 the central
body), the other fields are the orchestrator's bookkeeping attributes. -/
structure RebState where
  particles : List Particle
  sfindices : List Int
  posx : List (List (List ℚ))
  posy : List (List (List ℚ))
  posz : List (List (List ℚ))
  star_masses : List ℚ
  star_radii : List ℚ
  tidal_radii : List ℚ
  orbital_vels : List ℚ
  deriving DecidableEq

/-- State after `__init__(Nstars, Nfrag)` (lines 22-39) together with the
`sim_integrate` setup that adds the central body `reb_sim.add(m=sc.m_hole)`:
trajectory arrays preallocated as `Nstars` lists of `Nfrag` empty lists each,
`sfindices = [0]`, every per-star list empty. -/
def initState (Nstars Nfrag : Nat) : RebState where
  particles := [{ m := sim_constants.m_hole, x := 0, y := 0, z := 0,
                  vx := 0, vy := 0, vz := 0 }]
  sfindices := [0]
  posx := List.replicate Nstars (List.replicate Nfrag [])
  posy := List.replicate Nstars (List.replicate Nfrag [])
  posz := List.replicate Nstars (List.replicate Nfrag [])
  star_masses := []
  star_radii := []
  tidal_radii := []
  orbital_vels := []

/-! ## otherintegrator.py: operations -/

/-- Bookkeeping effect of `star_disrupt` (lines 74-161).  The stellar mass,
radius and tidal radius are drawn through `random` and the absent `funcs`
module, so they enter as parameters `m_star r_star r_t`; the `Nfrag`
fragment particles injected by the loop (positions, velocities and energies
built from further random draws, the energy spread and astropy unit
conversions) enter as the parameter `frags`, with `frags.length = Nfrag` in
the source.  The appended orbital velocity is the source's
`2.0 * m_hole / r_t`, and the appended `sfindices` entry is `reb_sim.N - 1`
after the injection. -/
def star_disrupt (s : RebState) (m_star r_star r_t : ℚ)
    (frags : List Particle) : RebState :=
  { s with
    star_masses := s.star_masses ++ [m_star]
    star_radii := s.star_radii ++ [r_star]
    tidal_radii := s.tidal_radii ++ [r_t]
    orbital_vels := s.orbital_vels ++ [2 * sim_constants.m_hole / r_t]
    particles := s.particles ++ frags
    sfindices := s.sfindices ++ [((s.particles ++ frags).length : Int) - 1] }

/-- Model of `remove_fragment_record(particle_index)` (lines 166-177):
`i = next(ind for ind, v in enumerate(sfindices) if v > pi or v == pi)`
(`none` models an uncaught `StopIteration`), `start = sfindices[i-1] + 1`
(Python wraps `i - 1 = -1` to the last entry), `new_pi = pi - start`,
`star = i - 1`, pop entry `new_pi` of `posx[star]`, `posy[star]`,
`posz[star]`, then decrement every `sfindices` entry from position `i` on
by one.  The particle indices the source passes come from `range(reb_sim.N)`
loops, hence `pi : Nat`. -/
def remove_fragment_record (s : RebState) (pi : Nat) : Option RebState :=
  match s.sfindices.findIdx? (fun v => decide ((pi : Int) ≤ v)) with
  | none => none
  | some i =>
    match pyGet s.sfindices ((i : Int) - 1) with
    | none => none
    | some prev =>
      let new_pi : Int := (pi : Int) - (prev + 1);
      let star : Int := (i : Int) - 1;
      match pyModify s.posx star (fun l => pyPop l new_pi) with
      | none => none
      | some px =>
        match pyModify s.posy star (fun l => pyPop l new_pi) with
        | none => none
        | some py =>
          match pyModify s.posz star (fun l => pyPop l new_pi) with
          | none => none
          | some pz =>
            some { s with
                   posx := px
                   posy := py
                   posz := pz
                   sfindices := s.sfindices.take i
                     ++ (s.sfindices.drop i).map (· - 1) }

/-- Paired removal as performed by `sim_integrate` (lines 241-242 and
260-261): `reb_sim.remove(index)` -- which compacts the integrator's particle
array -- immediately followed by `remove_fragment_record(index)`. -/
def remove_particle (s : RebState) (pi : Nat) : Option RebState :=
  if pi < s.particles.length then
    remove_fragment_record { s with particles := s.particles.eraseIdx pi } pi
  else none

/-- Iterated paired removal at a fixed particle index, used to remove a whole
star's fragments one by one (after each removal the integrator compacts the
array, so the star's next fragment sits at the same index again). -/
def removeIter (pi : Nat) : RebState → Nat → Option RebState
  | s, 0 => some s
  | s, n + 1 =>
    match remove_particle s pi with
    | none => none
    | some s' => removeIter pi s' n

/-- States of the integrator bookkeeping reachable from `initState` by
disruption events and paired removals of fragment particles (never of the
central body, index `0`); the natural number counts the disruptions. -/
inductive Reaches : RebState → Nat → Prop
  | init (Nstars Nfrag : Nat) : Reaches (initState Nstars Nfrag) 0
  | disrupt {s : RebState} {k : Nat} (m_star r_star r_t : ℚ)
      (frags : List Particle) (h : Reaches s k) :
      Reaches (star_disrupt s m_star r_star r_t frags) (k + 1)
  | remove {s s' : RebState} {k : Nat} (pi : Nat) (hpi : 1 ≤ pi)
      (h : Reaches s k) (hs : remove_particle s pi = some s') :
      Reaches s' k

/-- Squared asymptotic velocity computed by the bound velocity check
(lines 237-238): `np.absolute(vx**2 + vy**2 + vz**2 - orbital_vels[star])`. -/
def velinf2 (vx vy vz ov : ℚ) : ℚ := |vx ^ 2 + vy ^ 2 + vz ^ 2 - ov|

/-- One pass of the bound-velocity loop of `sim_integrate` (lines 230-251)
over the remaining particle indices, with `math.sqrt` passed in as `sqrtf`.
For each index: index `0` is skipped (`continue`); a failed `next(...)` star
lookup raises `StopIteration`, caught by the `except` and modelled by
stopping with no removal; an `IndexError` from a list access aborts the run,
also modelled by stopping; when `velinf < bound_vel` the particle is removed
from the integrator, `remove_fragment_record` runs, and the raised
`StopIteration` breaks the loop -- the scan ends immediately after the first
removal.  Returns the final state and how many particles were removed. -/
def boundScanAux (sqrtf : ℚ → ℚ) (bound_vel : ℚ) :
    RebState → List Nat → RebState × Nat
  | s, [] => (s, 0)
  | s, index :: rest =>
    if index = 0 then boundScanAux sqrtf bound_vel s rest
    else
      match pyGet s.particles (index : Int) with
      | none => (s, 0)
      | some p =>
        match s.sfindices.findIdx? (fun v => decide ((index : Int) ≤ v)) with
        | none => (s, 0)
        | some i =>
          match pyGet s.orbital_vels ((i : Int) - 1) with
          | none => (s, 0)
          | some ov =>
            if sqrtf (velinf2 p.vx p.vy p.vz ov) < bound_vel then
              let s1 := { s with particles := s.particles.eraseIdx index };
              match remove_fragment_record s1 index with
              | some s2 => (s2, 1)
              | none => (s1, 1)
            else boundScanAux sqrtf bound_vel s rest

/-- The bound-velocity check of one `sim_integrate` step: the loop
`for index in range(reb_sim.N)` over the particle count at loop entry. -/
def boundScan (sqrtf : ℚ → ℚ) (bound_vel : ℚ) (s : RebState) :
    RebState × Nat :=
  boundScanAux sqrtf bound_vel s (List.range s.particles.length)

/-- Fragment particle with all fields zero, used as a concrete injected
fragment in witnesses and counterexamples. -/
def examplePart : Particle :=
  { m := 0, x := 0, y := 0, z := 0, vx := 0, vy := 0, vz := 0 }

/-- Concrete state used in witnesses: the central body plus one star with a
single fragment at particle index 1 (`sfindices = [0, 1]`), its trajectory
lists preallocated with one empty list. -/
def exampleState : RebState where
  particles := [{ m := sim_constants.m_hole, x := 0, y := 0, z := 0,
                  vx := 0, vy := 0, vz := 0 }, examplePart]
  sfindices := [0, 1]
  posx := [[[]]]
  posy := [[[]]]
  posz := [[[]]]
  star_masses := [1]
  star_radii := [1]
  tidal_radii := [1]
  orbital_vels := [0]

/-- Concrete state: `exampleState` after `remove_fragment_record 1` -- the
boundary entry remains, now equal to its predecessor, and the star's
trajectory lists have lost their only entry. -/
def exampleState' : RebState where
  particles := [{ m := sim_constants.m_hole, x := 0, y := 0, z := 0,
                  vx := 0, vy := 0, vz := 0 }, examplePart]
  sfindices := [0, 0]
  posx := [[]]
  posy := [[]]
  posz := [[]]
  star_masses := [1]
  star_radii := [1]
  tidal_radii := [1]
  orbital_vels := [0]

/-- Intermediate bookkeeping state in the disrupt-then-remove-all round trip:
the state after `star_disrupt` followed by `k` paired removals at particle
index `s.particles.length` (the first fragment of the new star). -/
def mkMid (s : RebState) (m_star r_star r_t : ℚ) (frags : List Particle)
    (k : Nat) : RebState :=
  { star_disrupt s m_star r_star r_t frags with
    particles := s.particles ++ frags.drop k
    sfindices := s.sfindices
      ++ [(s.particles.length : Int) + ((frags.length - k : Nat) : Int) - 1]
    posx := (s.posx).set (s.sfindices.length - 1)
      ((s.posx.getD (s.sfindices.length - 1) []).drop k)
    posy := (s.posy).set (s.sfindices.length - 1)
      ((s.posy.getD (s.sfindices.length - 1) []).drop k)
    posz := (s.posz).set (s.sfindices.length - 1)
      ((s.posz.getD (s.sfindices.length - 1) []).drop k) }

/-! ## Helper lemmas: `List.findIdx?` with its index accumulator -/

theorem findIdx?_bound {α : Type} {p : α → Bool} :
    ∀ {l : List α} {i : Nat}, l.findIdx? p = some i → i < l.length := by
  intro l
  induction l with
  | nil => intro i h; simp [List.findIdx?_nil] at h
  | cons a t ih =>
    intro i h
    rw [List.findIdx?_cons] at h
    by_cases hpa : p a = true
    · rw [if_pos hpa] at h
      simp only [Option.some.injEq] at h
      simp [← h]
    · rw [if_neg hpa, List.findIdx?_succ] at h
      obtain ⟨j, hj, hji⟩ := Option.map_eq_some'.mp h
      have := ih hj
      simp only [List.length_cons]
      omega

theorem findIdx?_getElem {α : Type} {p : α → Bool} :
    ∀ {l : List α} {i : Nat}, l.findIdx? p = some i →
      ∃ hi : i < l.length, p (l.get ⟨i, hi⟩) = true := by
  intro l
  induction l with
  | nil => intro i h; simp [List.findIdx?_nil] at h
  | cons a t ih =>
    intro i h
    rw [List.findIdx?_cons] at h
    by_cases hpa : p a = true
    · rw [if_pos hpa] at h
      simp only [Option.some.injEq] at h
      subst h
      exact ⟨by simp, hpa⟩
    · rw [if_neg hpa, List.findIdx?_succ] at h
      obtain ⟨j, hj, hji⟩ := Option.map_eq_some'.mp h
      obtain ⟨hjl, hpj⟩ := ih hj
      subst hji
      exact ⟨by simpa using Nat.succ_lt_succ hjl, hpj⟩

theorem findIdx?_take {α : Type} {p : α → Bool} :
    ∀ {l : List α} {i : Nat}, l.findIdx? p = some i →
      ∀ v ∈ l.take i, p v = false := by
  intro l
  induction l with
  | nil => intro i h; simp [List.findIdx?_nil] at h
  | cons a t ih =>
    intro i h
    rw [List.findIdx?_cons] at h
    by_cases hpa : p a = true
    · rw [if_pos hpa] at h
      simp only [Option.some.injEq] at h
      subst h
      simp
    · rw [if_neg hpa, List.findIdx?_succ] at h
      obtain ⟨j, hj, hji⟩ := Option.map_eq_some'.mp h
      subst hji
      intro v hv
      rw [List.take_succ_cons] at hv
      rcases List.mem_cons.mp hv with hva | hvt
      · subst hva; simpa using hpa
      · exact ih hj v hvt

theorem findIdx?_cons_of_head_false {α : Type} {p : α → Bool} {a : α}
    {t : List α} (ha : p a = false) {i : Nat}
    (h : (a :: t).findIdx? p = some i) :
    1 ≤ i ∧ t.findIdx? p = some (i - 1) := by
  rw [List.findIdx?_cons, if_neg (by simp [ha]), List.findIdx?_succ] at h
  obtain ⟨j, hj, hji⟩ := Option.map_eq_some'.mp h
  subst hji
  exact ⟨by omega, by simpa using hj⟩

theorem findIdx?_append_sing {α : Type} {p : α → Bool} {x : α}
    (hx : p x = true) :
    ∀ {l : List α}, (∀ a ∈ l, p a = false) →
      (l ++ [x]).findIdx? p = some l.length := by
  intro l
  induction l with
  | nil => intro _; simp [List.findIdx?_cons, hx]
  | cons a t ih =>
    intro hall
    have ha : ¬ p a = true := by simp [hall a (by simp)]
    rw [List.cons_append, List.findIdx?_cons, if_neg ha, List.findIdx?_succ,
      ih (fun b hb => hall b (by simp [hb]))]
    simp

/-! ## Helper lemmas: the Python list primitives -/

theorem pyGet_natCast {α : Type} (l : List α) (k : Nat) :
    pyGet l (k : Int) = l[k]? := by
  have h0 : ¬ ((k : Int) < 0) := by omega
  simp only [pyGet, h0, if_false]
  rw [if_pos (by omega : (0 : Int) ≤ (k : Int))]
  simp

theorem pyGet_natCast_eq_some {α : Type} {l : List α} {k : Nat} {a : α}
    (h : pyGet l (k : Int) = some a) :
    ∃ hk : k < l.length, l.get ⟨k, hk⟩ = a := by
  rw [pyGet_natCast] at h
  obtain ⟨hk, hv⟩ := List.getElem?_eq_some_iff.mp h
  exact ⟨hk, hv⟩

theorem pyPop_natCast {α : Type} (l : List α) (k : Nat) :
    pyPop l (k : Int) = if k < l.length then some (l.eraseIdx k) else none := by
  have h0 : ¬ ((k : Int) < 0) := by omega
  simp only [pyPop, h0, if_false]
  by_cases hk : k < l.length
  · rw [if_pos ⟨by omega, by exact_mod_cast hk⟩, if_pos hk, Int.toNat_natCast]
  · rw [if_neg (show ¬ ((0 : Int) ≤ (k : Int) ∧ (k : Int) < (l.length : Int)) by
      push_cast; omega), if_neg hk]

theorem pyPop_eq_some {α : Type} {cur : List α} {npi : Int} {b : List α}
    (h : pyPop cur npi = some b) :
    ∃ jn : Nat, jn < cur.length ∧ b = cur.eraseIdx jn := by
  simp only [pyPop] at h
  by_cases hneg : npi < 0
  · rw [if_pos hneg] at h
    split_ifs at h with hc
    exact ⟨_, by omega, (Option.some.inj h).symm⟩
  · rw [if_neg hneg] at h
    split_ifs at h with hc
    exact ⟨_, by omega, (Option.some.inj h).symm⟩

theorem pyModify_eq_some_natCast {α : Type} {l : List α} {k : Nat}
    {f : α → Option α} {l' : List α}
    (h : pyModify l (k : Int) f = some l') :
    ∃ a b, l[k]? = some a ∧ f a = some b ∧ l' = l.set k b := by
  cases hg : pyGet l (k : Int) with
  | none =>
    simp only [pyModify, hg] at h
    exact Option.noConfusion h
  | some a =>
    simp only [pyModify, hg] at h
    obtain ⟨b, hb, hl'⟩ := Option.map_eq_some'.mp h
    refine ⟨a, b, by rw [← pyGet_natCast]; exact hg, hb, ?_⟩
    rw [← hl']
    have h0 : ¬ ((k : Int) < 0) := by omega
    simp [h0]

theorem pyModify_natCast_eq {α : Type} {l : List α} {k : Nat}
    {f : α → Option α} {a b : α}
    (hk : k < l.length) (ha : l.get ⟨k, hk⟩ = a) (hf : f a = some b) :
    pyModify l (k : Int) f = some (l.set k b) := by
  have hg : pyGet l (k : Int) = some a := by
    rw [pyGet_natCast, List.getElem?_eq_getElem hk]
    simp only [List.get_eq_getElem] at ha
    rw [ha]
  simp only [pyModify, hg, hf, Option.map_some']
  have h0 : ¬ ((k : Int) < 0) := by omega
  simp [h0]

/-! ## Helper lemmas: plain list facts -/

theorem eraseIdx_zero_eq_tail {α : Type} (l : List α) : l.eraseIdx 0 = l.tail := by
  cases l <;> rfl

theorem eraseIdx_append_length {α : Type} :
    ∀ (l l' : List α), (l ++ l').eraseIdx l.length = l ++ l'.tail := by
  intro l
  induction l with
  | nil => intro l'; simpa using eraseIdx_zero_eq_tail l'
  | cons a t ih => intro l'; simp [List.eraseIdx, ih]

theorem set_getD_self {α : Type} :
    ∀ (l : List α) (j : Nat) (d : α), l.set j (l.getD j d) = l := by
  intro l
  induction l with
  | nil => intro j d; rfl
  | cons a t ih =>
    intro j d
    cases j with
    | zero => simp [List.getD]
    | succ j => simp only [List.set, List.getD_cons_succ]; rw [ih]

theorem sorted_mem_le_getLast {l : List Int} (hs : l.Sorted (· ≤ ·))
    (hne : l ≠ []) : ∀ v ∈ l, v ≤ l.getLast hne := by
  induction l with
  | nil => exact absurd rfl hne
  | cons a t ih =>
    intro v hv
    cases t with
    | nil => simp at hv; simp [hv]
    | cons b t' =>
      rw [List.getLast_cons (by simp)]
      rcases List.mem_cons.mp hv with hva | hvt
      · subst hva
        exact le_trans
          (List.rel_of_sorted_cons hs _ (List.getLast_mem (l := b :: t') (by simp)))
          (le_refl _)
      · exact ih ((List.sorted_cons.mp hs).2) (by simp) v hvt

theorem sorted_take_append_map_sub {S : List Int} {i : Nat} {q : Int}
    (hs : S.Sorted (· ≤ ·))
    (htake : ∀ v ∈ S.take i, v < q)
    (hdrop : ∀ v ∈ S.drop i, q ≤ v) :
    (S.take i ++ (S.drop i).map (· - 1)).Sorted (· ≤ ·) := by
  refine List.pairwise_append.mpr ⟨?_, ?_, ?_⟩
  · exact List.Pairwise.sublist (List.take_sublist i S) hs
  · exact List.Pairwise.map _ (fun a b hab => by omega)
      (List.Pairwise.sublist (List.drop_sublist i S) hs)
  · intro a ha b hb
    obtain ⟨c, hc, hbc⟩ := List.mem_map.mp hb
    have h1 := htake a ha
    have h2 := hdrop c hc
    omega

theorem sorted_drop_ge {S : List Int} {i : Nat} {q : Int}
    (hs : S.Sorted (· ≤ ·)) (hi : i < S.length)
    (hq : q ≤ S.get ⟨i, hi⟩) : ∀ v ∈ S.drop i, q ≤ v := by
  intro v hv
  rw [List.drop_eq_getElem_cons hi] at hv
  rcases List.mem_cons.mp hv with hva | hvt
  · subst hva; simpa using hq
  · have hsd : (S.drop i).Sorted (· ≤ ·) :=
      List.Pairwise.sublist (List.drop_sublist i S) hs
    rw [List.drop_eq_getElem_cons hi] at hsd
    exact le_trans hq (List.rel_of_sorted_cons hsd v hvt)

/-! ## Helper lemmas: unfolding `remove_fragment_record` -/

theorem remove_fragment_record_eq_some {s : RebState} {pi : Nat}
    {s' : RebState} (h : remove_fragment_record s pi = some s') :
    ∃ i prev px py pz,
      s.sfindices.findIdx? (fun v => decide ((pi : Int) ≤ v)) = some i ∧
      pyGet s.sfindices ((i : Int) - 1) = some prev ∧
      pyModify s.posx ((i : Int) - 1)
        (fun l => pyPop l ((pi : Int) - (prev + 1))) = some px ∧
      pyModify s.posy ((i : Int) - 1)
        (fun l => pyPop l ((pi : Int) - (prev + 1))) = some py ∧
      pyModify s.posz ((i : Int) - 1)
        (fun l => pyPop l ((pi : Int) - (prev + 1))) = some pz ∧
      s' = { s with
             posx := px
             posy := py
             posz := pz
             sfindices := s.sfindices.take i
               ++ (s.sfindices.drop i).map (· - 1) } := by
  cases hfi : s.sfindices.findIdx? (fun v => decide ((pi : Int) ≤ v)) with
  | none =>
    simp only [remove_fragment_record, hfi] at h
    exact Option.noConfusion h
  | some i =>
    cases hpg : pyGet s.sfindices ((i : Int) - 1) with
    | none =>
      simp only [remove_fragment_record, hfi, hpg] at h
      exact Option.noConfusion h
    | some prev =>
      cases hmx : pyModify s.posx ((i : Int) - 1)
          (fun l => pyPop l ((pi : Int) - (prev + 1))) with
      | none =>
        simp only [remove_fragment_record, hfi, hpg, hmx] at h
        exact Option.noConfusion h
      | some px =>
        cases hmy : pyModify s.posy ((i : Int) - 1)
            (fun l => pyPop l ((pi : Int) - (prev + 1))) with
        | none =>
          simp only [remove_fragment_record, hfi, hpg, hmx, hmy] at h
          exact Option.noConfusion h
        | some py =>
          cases hmz : pyModify s.posz ((i : Int) - 1)
              (fun l => pyPop l ((pi : Int) - (prev + 1))) with
          | none =>
            simp only [remove_fragment_record, hfi, hpg, hmx, hmy, hmz] at h
            exact Option.noConfusion h
          | some pz =>
            simp only [remove_fragment_record, hfi, hpg, hmx, hmy, hmz,
              Option.some.injEq] at h
            exact ⟨i, prev, px, py, pz, rfl, hpg, hmx, hmy, hmz, h.symm⟩

theorem remove_fragment_record_eq_of {s : RebState} {pi : Nat} {i : Nat}
    {prev : Int} {px py pz : List (List (List ℚ))}
    (hfi : s.sfindices.findIdx? (fun v => decide ((pi : Int) ≤ v)) = some i)
    (hpg : pyGet s.sfindices ((i : Int) - 1) = some prev)
    (hmx : pyModify s.posx ((i : Int) - 1)
      (fun l => pyPop l ((pi : Int) - (prev + 1))) = some px)
    (hmy : pyModify s.posy ((i : Int) - 1)
      (fun l => pyPop l ((pi : Int) - (prev + 1))) = some py)
    (hmz : pyModify s.posz ((i : Int) - 1)
      (fun l => pyPop l ((pi : Int) - (prev + 1))) = some pz) :
    remove_fragment_record s pi = some { s with
      posx := px
      posy := py
      posz := pz
      sfindices := s.sfindices.take i
        ++ (s.sfindices.drop i).map (· - 1) } := by
  simp only [remove_fragment_record, hfi, hpg, hmx, hmy, hmz]

theorem remove_fragment_record_frame {s : RebState} {pi : Nat} {s' : RebState}
    (h : remove_fragment_record s pi = some s') :
    s'.particles = s.particles ∧ s'.orbital_vels = s.orbital_vels ∧
    s'.star_masses = s.star_masses ∧ s'.star_radii = s.star_radii ∧
    s'.tidal_radii = s.tidal_radii := by
  obtain ⟨i, prev, px, py, pz, _, _, _, _, _, rfl⟩ :=
    remove_fragment_record_eq_some h
  exact ⟨rfl, rfl, rfl, rfl, rfl⟩

/-! ## Helper lemmas: the reachability invariant -/

theorem reaches_invariant {s : RebState} {k : Nat} (h : Reaches s k) :
    s.sfindices.Sorted (· ≤ ·) ∧ s.sfindices.head? = some 0 ∧
    (∀ v ∈ s.sfindices, v ≤ (s.particles.length : Int) - 1) ∧
    1 ≤ s.particles.length ∧ s.sfindices.length = k + 1 := by
  induction h with
  | init Nstars Nfrag =>
    refine ⟨by simp [initState], by simp [initState], ?_, by simp [initState],
      by simp [initState]⟩
    intro v hv
    simp only [initState, List.mem_singleton] at hv
    subst hv
    simp [initState]
  | @disrupt s k m_star r_star r_t frags hr ih =>
    obtain ⟨hsort, hhead, hbound, hplen, hlen⟩ := ih
    refine ⟨?_, ?_, ?_, ?_, ?_⟩
    · show (s.sfindices ++ [((s.particles ++ frags).length : Int) - 1]).Sorted _
      refine List.pairwise_append.mpr ⟨hsort, by simp, ?_⟩
      intro a ha b hb
      simp only [List.mem_singleton] at hb
      subst hb
      have := hbound a ha
      simp only [List.length_append]
      push_cast
      omega
    · show (s.sfindices ++ [((s.particles ++ frags).length : Int) - 1]).head?
        = some 0
      rw [List.head?_append, hhead]
      rfl
    · intro v hv
      show v ≤ ((s.particles ++ frags).length : Int) - 1
      rcases List.mem_append.mp hv with hv | hv
      · have := hbound v hv
        simp only [List.length_append]
        push_cast
        omega
      · simp only [List.mem_singleton] at hv
        subst hv
        exact le_refl _
    · show 1 ≤ (s.particles ++ frags).length
      simp only [List.length_append]
      omega
    · show (s.sfindices ++ [((s.particles ++ frags).length : Int) - 1]).length
        = (k + 1) + 1
      simp [hlen]
  | @remove s s' k pi hpi hr hs ih =>
    obtain ⟨hsort, hhead, hbound, hplen, hlen⟩ := ih
    rw [remove_particle] at hs
    split_ifs at hs with hlt
    obtain ⟨i, prev, px, py, pz, hfi, hpg, hmx, hmy, hmz, rfl⟩ :=
      remove_fragment_record_eq_some hs
    have hfi' : s.sfindices.findIdx? (fun v => decide ((pi : Int) ≤ v))
        = some i := hfi
    have hi1 : 1 ≤ i := by
      cases hsf : s.sfindices with
      | nil => rw [hsf] at hhead; exact Option.noConfusion hhead
      | cons a t =>
        rw [hsf] at hhead
        have ha : a = 0 := by simpa using hhead
        rw [hsf] at hfi'
        refine (findIdx?_cons_of_head_false ?_ hfi').1
        rw [ha]
        simp
        omega
    have hib : i < s.sfindices.length := findIdx?_bound hfi'
    obtain ⟨hilen, hpidec⟩ := findIdx?_getElem hfi'
    have hpile : (pi : Int) ≤ s.sfindices.get ⟨i, hilen⟩ := by
      simpa using hpidec
    have htake : ∀ v ∈ s.sfindices.take i, v < (pi : Int) := by
      intro v hv
      have := findIdx?_take hfi' v hv
      simp only [decide_eq_false_iff_not, Int.not_le] at this
      omega
    have hdrop : ∀ v ∈ s.sfindices.drop i, (pi : Int) ≤ v :=
      sorted_drop_ge hsort hilen hpile
    have hplen' : (s.particles.eraseIdx pi).length = s.particles.length - 1 := by
      rw [List.length_eraseIdx, if_pos hlt]
    refine ⟨?_, ?_, ?_, ?_, ?_⟩
    · exact sorted_take_append_map_sub hsort htake hdrop
    · show (s.sfindices.take i ++ (s.sfindices.drop i).map (· - 1)).head?
        = some (0 : Int)
      cases hsf : s.sfindices with
      | nil => rw [hsf] at hhead; exact Option.noConfusion hhead
      | cons a t =>
        have ha : a = 0 := by rw [hsf] at hhead; simpa using hhead
        obtain ⟨m, rfl⟩ : ∃ m, i = m + 1 := ⟨i - 1, by omega⟩
        rw [List.take_succ_cons, List.cons_append, List.head?_cons, ha]
    · intro v hv
      show v ≤ ((s.particles.eraseIdx pi).length : Int) - 1
      rw [hplen']
      rcases List.mem_append.mp hv with hv | hv
      · have h1 := htake v hv
        have h2 : (pi : Int) < (s.particles.length : Int) := by
          exact_mod_cast hlt
        omega
      · obtain ⟨c, hc, hvc⟩ := List.mem_map.mp hv
        have h1 := hbound c (List.mem_of_mem_drop hc)
        omega
    · show 1 ≤ (s.particles.eraseIdx pi).length
      rw [hplen']
      omega
    · show (s.sfindices.take i ++ (s.sfindices.drop i).map (· - 1)).length
        = k + 1
      simp only [List.length_append, List.length_take, List.length_map,
        List.length_drop]
      omega

/-! ## Helper lemmas: the disrupt-then-remove-all round trip -/

theorem rebstate_update5_congr {b : RebState} {p p' : List Particle}
    {sf sf' : List Int} {px px' py py' pz pz' : List (List (List ℚ))}
    (h1 : p = p') (h2 : sf = sf') (h3 : px = px') (h4 : py = py')
    (h5 : pz = pz') :
    ({ b with
        particles := p
        sfindices := sf
        posx := px
        posy := py
        posz := pz } : RebState)
      = { b with
          particles := p'
          sfindices := sf'
          posx := px'
          posy := py'
          posz := pz' } := by
  subst h1 h2 h3 h4 h5
  rfl

theorem mkMid_zero (s : RebState) (m_star r_star r_t : ℚ)
    (frags : List Particle) :
    mkMid s m_star r_star r_t frags 0 = star_disrupt s m_star r_star r_t frags := by
  have heta : ({ star_disrupt s m_star r_star r_t frags with
      particles := (star_disrupt s m_star r_star r_t frags).particles
      sfindices := (star_disrupt s m_star r_star r_t frags).sfindices
      posx := (star_disrupt s m_star r_star r_t frags).posx
      posy := (star_disrupt s m_star r_star r_t frags).posy
      posz := (star_disrupt s m_star r_star r_t frags).posz } : RebState)
      = star_disrupt s m_star r_star r_t frags := rfl
  refine Eq.trans ?_ heta
  refine rebstate_update5_congr ?_ ?_ ?_ ?_ ?_
  · show s.particles ++ frags.drop 0 = s.particles ++ frags
    rw [List.drop_zero]
  · show s.sfindices
        ++ [(s.particles.length : Int) + ((frags.length - 0 : Nat) : Int) - 1]
      = s.sfindices ++ [((s.particles ++ frags).length : Int) - 1]
    congr 2
    simp only [List.length_append]
    omega
  · show s.posx.set (s.sfindices.length - 1)
        ((s.posx.getD (s.sfindices.length - 1) []).drop 0) = s.posx
    rw [List.drop_zero, set_getD_self]
  · show s.posy.set (s.sfindices.length - 1)
        ((s.posy.getD (s.sfindices.length - 1) []).drop 0) = s.posy
    rw [List.drop_zero, set_getD_self]
  · show s.posz.set (s.sfindices.length - 1)
        ((s.posz.getD (s.sfindices.length - 1) []).drop 0) = s.posz
    rw [List.drop_zero, set_getD_self]

theorem remove_particle_mkMid {s : RebState} {m_star r_star r_t : ℚ}
    {frags : List Particle} {k : Nat}
    (hsort : s.sfindices.Sorted (· ≤ ·))
    (hlast : s.sfindices.getLast? = some ((s.particles.length : Int) - 1))
    (hx : s.sfindices.length - 1 < s.posx.length)
    (hy : s.sfindices.length - 1 < s.posy.length)
    (hz : s.sfindices.length - 1 < s.posz.length)
    (hfx : frags.length ≤ (s.posx.getD (s.sfindices.length - 1) []).length)
    (hfy : frags.length ≤ (s.posy.getD (s.sfindices.length - 1) []).length)
    (hfz : frags.length ≤ (s.posz.getD (s.sfindices.length - 1) []).length)
    (hk : k < frags.length) :
    remove_particle (mkMid s m_star r_star r_t frags k) s.particles.length
      = some (mkMid s m_star r_star r_t frags (k + 1)) := by
  have hSne : s.sfindices ≠ [] := by
    intro h0
    rw [h0] at hlast
    exact Option.noConfusion hlast
  have hSlen : 1 ≤ s.sfindices.length := List.length_pos.mpr hSne
  have hgl : s.sfindices.getLast hSne = (s.particles.length : Int) - 1 := by
    have h1 := List.getLast?_eq_getLast s.sfindices hSne
    rw [h1] at hlast
    exact Option.some.inj hlast
  have hall : ∀ a ∈ s.sfindices,
      (decide ((s.particles.length : Int) ≤ a)) = false := by
    intro a ha
    have h1 := sorted_mem_le_getLast hsort hSne a ha
    rw [hgl] at h1
    simp only [decide_eq_false_iff_not, Int.not_le]
    omega
  have hv : (decide ((s.particles.length : Int)
      ≤ (s.particles.length : Int) + ((frags.length - k : Nat) : Int) - 1))
      = true := by
    simp only [decide_eq_true_eq]
    omega
  have hfi : (s.sfindices
        ++ [(s.particles.length : Int) + ((frags.length - k : Nat) : Int) - 1]).findIdx?
        (fun v => decide ((s.particles.length : Int) ≤ v))
      = some s.sfindices.length :=
    findIdx?_append_sing (p := fun v => decide ((s.particles.length : Int) ≤ v))
      hv hall
  have hcast : ((s.sfindices.length : Int) - 1)
      = (((s.sfindices.length - 1 : Nat)) : Int) := by omega
  have hpg : pyGet (s.sfindices
        ++ [(s.particles.length : Int) + ((frags.length - k : Nat) : Int) - 1])
        ((s.sfindices.length : Int) - 1)
      = some ((s.particles.length : Int) - 1) := by
    rw [hcast, pyGet_natCast]
    rw [List.getElem?_append, if_pos (by omega)]
    rw [← List.getLast?_eq_getElem?, List.getLast?_eq_getLast _ hSne, hgl]
  have hnp : ((s.particles.length : Int)
      - (((s.particles.length : Int) - 1) + 1)) = 0 := by ring
  have hmod : ∀ (P : List (List (List ℚ))),
      s.sfindices.length - 1 < P.length →
      frags.length ≤ (P.getD (s.sfindices.length - 1) []).length →
      pyModify (P.set (s.sfindices.length - 1)
          ((P.getD (s.sfindices.length - 1) []).drop k))
        ((s.sfindices.length : Int) - 1)
        (fun l => pyPop l ((s.particles.length : Int)
          - (((s.particles.length : Int) - 1) + 1)))
      = some (P.set (s.sfindices.length - 1)
          ((P.getD (s.sfindices.length - 1) []).drop (k + 1))) := by
    intro P hP hfP
    simp only [hnp]
    rw [hcast]
    have hset : (P.set (s.sfindices.length - 1)
        ((P.getD (s.sfindices.length - 1) []).drop k)).set (s.sfindices.length - 1)
        ((P.getD (s.sfindices.length - 1) []).drop (k + 1))
        = P.set (s.sfindices.length - 1)
          ((P.getD (s.sfindices.length - 1) []).drop (k + 1)) :=
      List.set_set _ _ _ _
    rw [← hset]
    have hlenset : s.sfindices.length - 1
        < (P.set (s.sfindices.length - 1)
            ((P.getD (s.sfindices.length - 1) []).drop k)).length := by
      simpa using hP
    refine pyModify_natCast_eq (a := (P.getD (s.sfindices.length - 1) []).drop k)
      hlenset ?_ ?_
    · have h1 : (P.set (s.sfindices.length - 1)
          ((P.getD (s.sfindices.length - 1) []).drop k))[s.sfindices.length - 1]?
          = some ((P.getD (s.sfindices.length - 1) []).drop k) :=
        List.getElem?_set_self hP
      have h2 : (P.set (s.sfindices.length - 1)
          ((P.getD (s.sfindices.length - 1) []).drop k))[s.sfindices.length - 1]?
          = some ((P.set (s.sfindices.length - 1)
            ((P.getD (s.sfindices.length - 1) []).drop k)).get
              ⟨s.sfindices.length - 1, hlenset⟩) := by
        rw [List.getElem?_eq_getElem hlenset]
        rfl
      exact Option.some.inj (h2.symm.trans h1)
    · have h0 : pyPop ((P.getD (s.sfindices.length - 1) []).drop k) ((0 : Nat) : Int)
          = some (((P.getD (s.sfindices.length - 1) []).drop k).eraseIdx 0) := by
        rw [pyPop_natCast]
        rw [if_pos (by simp only [List.length_drop]; omega)]
      rw [Nat.cast_zero] at h0
      rw [h0, eraseIdx_zero_eq_tail, List.tail_drop]
  rw [remove_particle]
  have hguard : s.particles.length
      < (mkMid s m_star r_star r_t frags k).particles.length := by
    show s.particles.length < (s.particles ++ frags.drop k).length
    simp only [List.length_append, List.length_drop]
    omega
  rw [if_pos hguard]
  refine (remove_fragment_record_eq_of
    hfi hpg (hmod s.posx hx hfx) (hmod s.posy hy hfy) (hmod s.posz hz hfz)).trans ?_
  show (some { star_disrupt s m_star r_star r_t frags with
      particles := (s.particles ++ frags.drop k).eraseIdx s.particles.length
      sfindices := (s.sfindices
          ++ [(s.particles.length : Int) + ((frags.length - k : Nat) : Int) - 1]).take
            s.sfindices.length
        ++ ((s.sfindices
          ++ [(s.particles.length : Int) + ((frags.length - k : Nat) : Int) - 1]).drop
            s.sfindices.length).map (· - 1)
      posx := s.posx.set (s.sfindices.length - 1)
        ((s.posx.getD (s.sfindices.length - 1) []).drop (k + 1))
      posy := s.posy.set (s.sfindices.length - 1)
        ((s.posy.getD (s.sfindices.length - 1) []).drop (k + 1))
      posz := s.posz.set (s.sfindices.length - 1)
        ((s.posz.getD (s.sfindices.length - 1) []).drop (k + 1)) } : Option RebState)
    = some { star_disrupt s m_star r_star r_t frags with
      particles := s.particles ++ frags.drop (k + 1)
      sfindices := s.sfindices
        ++ [(s.particles.length : Int) + ((frags.length - (k + 1) : Nat) : Int) - 1]
      posx := s.posx.set (s.sfindices.length - 1)
        ((s.posx.getD (s.sfindices.length - 1) []).drop (k + 1))
      posy := s.posy.set (s.sfindices.length - 1)
        ((s.posy.getD (s.sfindices.length - 1) []).drop (k + 1))
      posz := s.posz.set (s.sfindices.length - 1)
        ((s.posz.getD (s.sfindices.length - 1) []).drop (k + 1)) }
  refine congrArg some ?_
  refine rebstate_update5_congr ?_ ?_ rfl rfl rfl
  · rw [eraseIdx_append_length, List.tail_drop]
  · rw [List.take_left, List.drop_left]
    simp only [List.map_cons, List.map_nil]
    congr 2
    omega

theorem removeIter_mkMid {s : RebState} {m_star r_star r_t : ℚ}
    {frags : List Particle}
    (hsort : s.sfindices.Sorted (· ≤ ·))
    (hlast : s.sfindices.getLast? = some ((s.particles.length : Int) - 1))
    (hx : s.sfindices.length - 1 < s.posx.length)
    (hy : s.sfindices.length - 1 < s.posy.length)
    (hz : s.sfindices.length - 1 < s.posz.length)
    (hfx : frags.length ≤ (s.posx.getD (s.sfindices.length - 1) []).length)
    (hfy : frags.length ≤ (s.posy.getD (s.sfindices.length - 1) []).length)
    (hfz : frags.length ≤ (s.posz.getD (s.sfindices.length - 1) []).length) :
    ∀ (j k : Nat), k + j ≤ frags.length →
      removeIter s.particles.length (mkMid s m_star r_star r_t frags k) j
        = some (mkMid s m_star r_star r_t frags (k + j)) := by
  intro j
  induction j with
  | zero => intro k hk; simp [removeIter]
  | succ j ih =>
    intro k hk
    rw [removeIter]
    rw [remove_particle_mkMid hsort hlast hx hy hz hfx hfy hfz (by omega)]
    rw [show k + (j + 1) = (k + 1) + j by omega]
    exact ih (k + 1) (by omega)

/-! ## Helper lemmas: the bound-velocity scan -/

theorem boundScanAux_spec (sqrtf : ℚ → ℚ) (bound_vel : ℚ) :
    ∀ (idxs : List Nat) (s : RebState),
      (boundScanAux sqrtf bound_vel s idxs).2 ≤ 1 ∧
      (boundScanAux sqrtf bound_vel s idxs).1.particles.length
        + (boundScanAux sqrtf bound_vel s idxs).2 = s.particles.length := by
  intro idxs
  induction idxs with
  | nil => intro s; simp [boundScanAux]
  | cons index rest ih =>
    intro s
    by_cases h0 : index = 0
    · rw [boundScanAux, if_pos h0]
      exact ih s
    · cases hp : pyGet s.particles (index : Int) with
      | none => rw [boundScanAux, if_neg h0]; simp [hp]
      | some p =>
        cases hfi : s.sfindices.findIdx? (fun v => decide ((index : Int) ≤ v)) with
        | none => rw [boundScanAux, if_neg h0]; simp [hp, hfi]
        | some i =>
          cases hov : pyGet s.orbital_vels ((i : Int) - 1) with
          | none => rw [boundScanAux, if_neg h0]; simp [hp, hfi, hov]
          | some ov =>
            rw [boundScanAux, if_neg h0]
            simp only [hp, hfi, hov]
            by_cases hvel : sqrtf (velinf2 p.vx p.vy p.vz ov) < bound_vel
            · rw [if_pos hvel]
              obtain ⟨hplen, -⟩ := pyGet_natCast_eq_some hp
              have herase : (s.particles.eraseIdx index).length
                  = s.particles.length - 1 := by
                rw [List.length_eraseIdx, if_pos hplen]
              cases hrec : remove_fragment_record
                  { s with particles := s.particles.eraseIdx index } index with
              | none =>
                simp only [hrec]
                constructor
                · omega
                · show (s.particles.eraseIdx index).length + 1 = s.particles.length
                  omega
              | some s2 =>
                simp only [hrec]
                constructor
                · omega
                · show s2.particles.length + 1 = s.particles.length
                  have hfr := (remove_fragment_record_frame hrec).1
                  simp only at hfr
                  rw [hfr]
                  show (s.particles.eraseIdx index).length + 1 = s.particles.length
                  omega
            · rw [if_neg hvel]
              exact ih s

/-! ## Helper lemmas: linspace, argsort and the cumulative curve -/

theorem linspace_length (a b : ℚ) (num : Nat) :
    (linspace a b num).length = num := by
  unfold linspace
  split_ifs with h1 h2
  · simp [h1]
  · simp [h2]
  · simp

theorem linspace_mem {a b : ℚ} {num : Nat} (hab : a ≤ b) :
    ∀ q ∈ linspace a b num, a ≤ q ∧ q ≤ b := by
  intro q hq
  unfold linspace at hq
  split_ifs at hq with h1 h2
  · simp at hq
  · simp only [List.mem_singleton] at hq
    exact ⟨hq.symm.le, hq.le.trans hab⟩
  · obtain ⟨i, hi, rfl⟩ := List.mem_map.mp hq
    have hi' : i < num := List.mem_range.mp hi
    have hnum : 2 ≤ num := by omega
    have hden : (0 : ℚ) < (num : ℚ) - 1 := by
      have h3 : (2 : ℚ) ≤ (num : ℚ) := by exact_mod_cast hnum
      linarith
    have hba : (0 : ℚ) ≤ b - a := sub_nonneg.mpr hab
    have hfrac1 : (i : ℚ) / ((num : ℚ) - 1) ≤ 1 := by
      rw [div_le_one hden]
      have h4 : (i : ℚ) + 1 ≤ (num : ℚ) := by exact_mod_cast hi'
      linarith
    constructor
    · have h5 : 0 ≤ (b - a) * (i : ℚ) / ((num : ℚ) - 1) := by positivity
      linarith
    · have h6 : (b - a) * (i : ℚ) / ((num : ℚ) - 1) ≤ b - a := by
        rw [mul_div_assoc]
        exact mul_le_of_le_one_right hba hfrac1
      linarith

theorem linspace_getD {a b : ℚ} {num i : Nat} (h2 : 2 ≤ num) (hi : i < num) :
    (linspace a b num).getD i 0 = a + (b - a) * i / ((num : ℚ) - 1) := by
  unfold linspace
  rw [if_neg (by omega), if_neg (by omega)]
  rw [List.getD_eq_getElem _ _ (by simpa using hi)]
  simp

theorem energy_spread_points_length (nfrag : Nat) :
    (energy_spread_points nfrag).length = nfrag - 1 :=
  linspace_length _ _ _

theorem energy_spread_points_mem {nfrag : Nat} (h1 : 1 ≤ nfrag) :
    ∀ q ∈ energy_spread_points nfrag, 0 ≤ q ∧ q ≤ 1 := by
  intro q hq
  unfold energy_spread_points at hq
  have hn : (1 : ℚ) ≤ (nfrag : ℚ) := by exact_mod_cast h1
  have hnpos : (0 : ℚ) < (nfrag : ℚ) := by linarith
  have hhalf0 : (0 : ℚ) ≤ 1 / (nfrag : ℚ) * (1 / 2) := by positivity
  have hhalfle : 1 / (nfrag : ℚ) * (1 / 2) ≤ 1 / 2 := by
    have h1n : 1 / (nfrag : ℚ) ≤ 1 := by
      rw [div_le_one hnpos]
      exact hn
    nlinarith
  have hab : 1 / (nfrag : ℚ) * (1 / 2) ≤ 1 - 1 / (nfrag : ℚ) * (1 / 2) := by
    linarith
  obtain ⟨hqa, hqb⟩ := linspace_mem hab q hq
  exact ⟨by linarith, by linarith⟩

theorem argsort_length (l : List ℚ) : (argsort l).length = l.length := by
  unfold argsort
  rw [List.length_insertionSort, List.length_range]

theorem argsort_sorted (l : List ℚ) :
    (argsort l).Sorted (fun a b => l.getD a 0 ≤ l.getD b 0) := by
  unfold argsort
  haveI h1 : IsTotal Nat (fun a b => l.getD a 0 ≤ l.getD b 0) :=
    ⟨fun a b => le_total _ _⟩
  haveI h2 : IsTrans Nat (fun a b => l.getD a 0 ≤ l.getD b 0) :=
    ⟨fun a b c hab hbc => le_trans hab hbc⟩
  exact List.sorted_insertionSort _ _

theorem argsort_mem {l : List ℚ} {a : Nat} (h : a ∈ argsort l) : a < l.length := by
  unfold argsort at h
  rw [List.mem_insertionSort, List.mem_range] at h
  exact h

theorem argsort_nodup (l : List ℚ) : (argsort l).Nodup := by
  unfold argsort
  exact (List.perm_insertionSort _ _).symm.nodup (List.nodup_range _)

theorem foldr_max_zero_mem :
    ∀ (l : List ℚ), l.foldr max 0 = 0 ∨ l.foldr max 0 ∈ l := by
  intro l
  induction l with
  | nil => left; rfl
  | cons a t ih =>
    simp only [List.foldr_cons]
    rcases le_total a (t.foldr max 0) with h | h
    · rw [max_eq_right h]
      rcases ih with h0 | hm
      · left; exact h0
      · right; exact List.mem_cons_of_mem a hm
    · rw [max_eq_left h]
      right
      exact List.mem_cons_self a t

/-- Each table's interpolant `interp1d(CDE, s)` has the interval spanned by
the `CDE` values as its domain; `0` and `1` are always among those values
(the appended origin gives the first cumulative sum `0`, and the maximum
normalises to `1`), so the domain covers `[0, 1]`.  The hypothesis is that
the largest cumulative sum is positive, which holds for every nondegenerate
density table. -/
theorem buildCDE_mem_endpoints (y : List ℚ)
    (hpos : 0 < (cumsum ((coarsen 10 y ++ [0]).reverse)).foldr max 0) :
    (0 : ℚ) ∈ buildCDE y ∧ (1 : ℚ) ∈ buildCDE y := by
  have hrev : ((coarsen 10 y ++ [0]).reverse : List ℚ)
      = 0 :: (coarsen 10 y).reverse := by simp
  have hhead : (0 : ℚ) ∈ cumsum ((coarsen 10 y ++ [0]).reverse) := by
    rw [hrev]
    show (0 : ℚ) ∈ (List.scanl (· + ·) 0 (0 :: (coarsen 10 y).reverse)).tail
    rw [List.scanl_cons]
    cases hc0 : (coarsen 10 y).reverse with
    | nil => simp [List.scanl]
    | cons a t => simp [List.scanl]
  have hm : (cumsum ((coarsen 10 y ++ [0]).reverse)).foldr max 0
      ∈ cumsum ((coarsen 10 y ++ [0]).reverse) := by
    rcases foldr_max_zero_mem (cumsum ((coarsen 10 y ++ [0]).reverse)) with h0 | hm
    · rw [h0] at hpos
      exact absurd hpos (lt_irrefl 0)
    · exact hm
  constructor
  · exact List.mem_map.mpr ⟨0, hhead, by simp⟩
  · exact List.mem_map.mpr ⟨_, hm, div_self (ne_of_gt hpos)⟩

/-! ## The claims -/

/-- C4: the claim states each coarse value is the block average of 10
consecutive retained points, `(x[10i] + ... + x[10i+9]) / 10`.  The code
slices `x[10*i : 10*i + 9]`, which drops the block's last point: on the
one-block curve `x = [1, ..., 10]` it produces `(1 + ... + 9) / 10 = 4.5`,
while the average of all 10 points is `5.5`.  This theorem evaluates the
embedded coarsening loop at that failing input and shows the divergence. -/
theorem c4_coarsen_divergence :
    coarsen 10 [1, 2, 3, 4, 5, 6, 7, 8, 9, 10] = [9 / 2] ∧
    (([1, 2, 3, 4, 5, 6, 7, 8, 9, 10] : List ℚ).take 10).sum / 10 = 11 / 2 ∧
    (9 / 2 : ℚ) ≠ 11 / 2 := by
  refine ⟨?_, by norm_num, by norm_num⟩
  norm_num [coarsen, List.range_succ]

/-- C7: `halo_force(r, coord)` returns exactly `0` when `r < 10 * rc` and
otherwise equals
`-m_halo * coord * (log(1 + r/r_halo)/r^3 - 1/((r + r_halo) * r^2))`,
for every coordinate, every radius (in particular every `r > 0` as the claim
states) and every model `rlog` of the float logarithm. -/
theorem c7_halo_force (rlog : ℚ → ℚ) (r coord : ℚ) :
    (r < 10 * sim_constants.rc → halo_force rlog r coord = 0) ∧
    (¬ r < 10 * sim_constants.rc →
      halo_force rlog r coord =
        -sim_constants.m_halo * coord *
          (rlog (1 + r / sim_constants.r_halo) / r ^ 3
            - 1 / ((r + sim_constants.r_halo) * r ^ 2))) := by
  constructor
  · intro h
    simp only [halo_force, logterm, rterm, if_pos h]
    ring
  · intro h
    simp only [halo_force, logterm, rterm, if_neg h]
    ring

/-- C8: in one scheduled-time step, the bound-velocity scan removes at most
one particle, whatever the state, the threshold and the model of `sqrt`:
a removal immediately stops the scan, so the number of removals is at most
`1` and the particle count drops by exactly the number of removals. -/
theorem c8_single_bound_removal (sqrtf : ℚ → ℚ) (bound_vel : ℚ)
    (s : RebState) :
    (boundScan sqrtf bound_vel s).2 ≤ 1 ∧
    (boundScan sqrtf bound_vel s).1.particles.length
      + (boundScan sqrtf bound_vel s).2 = s.particles.length :=
  boundScanAux_spec sqrtf bound_vel (List.range s.particles.length) s

/-- C10: the argument `velinf2` passed to `sqrt` in the bound-velocity check
is an absolute value, hence non-negative for every velocity and stored
orbital value; therefore `velinf = sqrt(velinf2)` is a real, non-negative
number, also when the squared speed is below the stored orbital value, in
which case `velinf2` is the (positive) difference the other way round. -/
theorem c10_velinf_nonneg (vx vy vz ov : ℚ) :
    0 ≤ velinf2 vx vy vz ov ∧
    0 ≤ Real.sqrt ((velinf2 vx vy vz ov : ℚ) : ℝ) ∧
    (vx ^ 2 + vy ^ 2 + vz ^ 2 < ov →
      velinf2 vx vy vz ov = ov - (vx ^ 2 + vy ^ 2 + vz ^ 2)) := by
  refine ⟨abs_nonneg _, Real.sqrt_nonneg _, ?_⟩
  intro h
  rw [velinf2, abs_of_neg (by linarith)]
  ring

/-- C3: for every `beta` with at least two tabulated tables and every
`nfrag ≥ 1`, `energy_spread` returns exactly `nfrag - 1` values, and every
sample point it feeds to the blended interpolant lies in `[0, 1]` -- the
interval the two bracketing tables' interpolants cover, since every table's
`CDE` abscissa contains `0` and `1` (`buildCDE_mem_endpoints`). -/
theorem c3_energy_spread (betas : List ℚ) (functions : List (ℚ → ℚ))
    (beta : ℚ) (nfrag : Nat) (h1 : 1 ≤ nfrag) (h2 : 2 ≤ betas.length) :
    (energy_spread betas functions beta nfrag).map List.length
      = some (nfrag - 1) ∧
    (energy_spread_points nfrag).all
      (fun q => decide (0 ≤ q) && decide (q ≤ 1)) = true := by
  constructor
  · have hlen : (argsort (betas.map (fun b => |b - beta|))).length
        = betas.length := by
      rw [argsort_length, List.length_map]
    cases hsort : argsort (betas.map (fun b => |b - beta|)) with
    | nil =>
      rw [hsort] at hlen
      simp only [List.length_nil] at hlen
      omega
    | cons i t =>
      cases t with
      | nil =>
        rw [hsort] at hlen
        simp only [List.length_singleton] at hlen
        omega
      | cons j rest =>
        simp only [energy_spread, beta_interp, hsort, Option.map_some']
        rw [List.length_map, energy_spread_points_length]
  · rw [List.all_eq_true]
    intro q hq
    obtain ⟨hq0, hq1⟩ := energy_spread_points_mem h1 q hq
    simp [hq0, hq1]

/-- Witness for C3 at a concrete input: two tables at `beta = 1` and
`beta = 3`, query `beta = 1` with `nfrag = 3`. -/
theorem c3_energy_spread_witness :
    (1 ≤ 3 ∧ 2 ≤ ([1, 3] : List ℚ).length) ∧
    ((energy_spread [1, 3] [fun q => q + 1, fun q => 2 * q] 1 3).map
        List.length = some (3 - 1) ∧
      (energy_spread_points 3).all
        (fun q => decide (0 ≤ q) && decide (q ≤ 1)) = true) :=
  ⟨⟨by decide, by decide⟩,
    c3_energy_spread [1, 3] [fun q => q + 1, fun q => 2 * q] 1 3
      (by decide) (by decide)⟩

/-- C5 counterexample: the claim says consecutive sample points are spaced
exactly `1/nfrag` apart.  For `nfrag = 4` the sample points are
`[1/8, 1/2, 7/8]`: the first gap is `3/8`, not `1/4` (and `1/2` is not a
bin midpoint of the partition of `[0,1]` into 4 bins). -/
theorem c5_spacing_counterexample :
    energy_spread_points 4 = [1 / 8, 1 / 2, 7 / 8] ∧
    ¬ ((energy_spread_points 4).getD 1 0 - (energy_spread_points 4).getD 0 0
        = 1 / 4) := by
  have h : energy_spread_points 4 = [1 / 8, 1 / 2, 7 / 8] := by
    norm_num [energy_spread_points, linspace, List.range_succ]
  refine ⟨h, ?_⟩
  rw [h]
  norm_num

/-- C5 (amended): for `nfrag ≥ 3` the `nfrag - 1` sample points are evenly
spaced from the first bin midpoint `1/(2 nfrag)` to the last bin midpoint
`1 - 1/(2 nfrag)`, with spacing `(1 - 1/nfrag)/(nfrag - 2)` -- not
`1/nfrag`, and the interior points are not bin midpoints. -/
theorem c5_spacing_amended (nfrag i : Nat) (h3 : 3 ≤ nfrag)
    (hi : i < nfrag - 1) :
    (energy_spread_points nfrag).getD i 0 =
      1 / (2 * (nfrag : ℚ))
        + (i : ℚ) * ((1 - 1 / (nfrag : ℚ)) / ((nfrag : ℚ) - 2)) := by
  unfold energy_spread_points
  rw [linspace_getD (by omega) hi]
  have hcast : ((nfrag - 1 : Nat) : ℚ) = (nfrag : ℚ) - 1 := by
    have : 1 ≤ nfrag := by omega
    push_cast [this]
    ring
  rw [hcast]
  have hn0 : ((nfrag : ℚ)) ≠ 0 := by
    have : (3 : ℚ) ≤ (nfrag : ℚ) := by exact_mod_cast h3
    intro h0
    rw [h0] at this
    norm_num at this
  have hn2 : ((nfrag : ℚ)) - 2 ≠ 0 := by
    have : (3 : ℚ) ≤ (nfrag : ℚ) := by exact_mod_cast h3
    intro h0
    have : (nfrag : ℚ) = 2 := by linarith
    linarith
  ring

/-- Witness for C5 (amended) at `nfrag = 4`, `i = 1`: the middle sample
point is `1/8 + 1 * ((3/4)/2) = 1/2`. -/
theorem c5_spacing_witness :
    (3 ≤ 4 ∧ 1 < 4 - 1) ∧
    (energy_spread_points 4).getD 1 0 =
      1 / (2 * (4 : ℚ)) + ((1 : Nat) : ℚ) * ((1 - 1 / (4 : ℚ)) / ((4 : ℚ) - 2)) :=
  ⟨⟨by decide, by decide⟩, c5_spacing_amended 4 1 (by decide) (by decide)⟩

/-- C6: for distinct tabulated beta values (one table per file) with the two
nearest indices `i`, `j` picked by `argsort`, the two blend weights are
non-negative, sum to `1`, the nearer table gets the larger weight, the
blended interpolant evaluates to the weighted sum of the two tables'
interpolants, and when `beta` equals the nearest tabulated value exactly the
blend equals that table's interpolant pointwise. -/
theorem c6_blend_weights (betas : List ℚ) (functions : List (ℚ → ℚ))
    (beta x : ℚ) (i j : Nat) (rest : List Nat)
    (hnd : betas.Nodup)
    (hsort : argsort (betas.map (fun b => |b - beta|)) = i :: j :: rest) :
    0 ≤ (blendWeights betas beta i j).1 ∧
    0 ≤ (blendWeights betas beta i j).2 ∧
    (blendWeights betas beta i j).1 + (blendWeights betas beta i j).2 = 1 ∧
    (blendWeights betas beta i j).2 ≤ (blendWeights betas beta i j).1 ∧
    blendApply betas functions beta x =
      some ((blendWeights betas beta i j).1 * (functions.getD i (fun _ => 0)) x
          + (blendWeights betas beta i j).2 * (functions.getD j (fun _ => 0)) x) ∧
    (betas.getD i 0 = beta →
      blendApply betas functions beta x
        = some ((functions.getD i (fun _ => 0)) x)) := by
  have hilt : i < betas.length := by
    have hmem : i ∈ argsort (betas.map (fun b => |b - beta|)) := by
      rw [hsort]
      simp
    have := argsort_mem hmem
    rwa [List.length_map] at this
  have hjlt : j < betas.length := by
    have hmem : j ∈ argsort (betas.map (fun b => |b - beta|)) := by
      rw [hsort]
      simp
    have := argsort_mem hmem
    rwa [List.length_map] at this
  have hij : i ≠ j := by
    have hnd2 := argsort_nodup (betas.map (fun b => |b - beta|))
    rw [hsort] at hnd2
    intro he
    exact (List.nodup_cons.mp hnd2).1 (he ▸ List.mem_cons_self j rest)
  have hgi : (betas.map (fun b => |b - beta|)).getD i 0
      = |betas.get ⟨i, hilt⟩ - beta| := by
    rw [List.getD_eq_getElem _ _ (by simpa using hilt)]
    simp
  have hgj : (betas.map (fun b => |b - beta|)).getD j 0
      = |betas.get ⟨j, hjlt⟩ - beta| := by
    rw [List.getD_eq_getElem _ _ (by simpa using hjlt)]
    simp
  have hd1nn : 0 ≤ (betas.map (fun b => |b - beta|)).getD i 0 := by
    rw [hgi]
    exact abs_nonneg _
  have hd2nn : 0 ≤ (betas.map (fun b => |b - beta|)).getD j 0 := by
    rw [hgj]
    exact abs_nonneg _
  have hdle : (betas.map (fun b => |b - beta|)).getD i 0
      ≤ (betas.map (fun b => |b - beta|)).getD j 0 := by
    have hs := argsort_sorted (betas.map (fun b => |b - beta|))
    rw [hsort] at hs
    exact (List.sorted_cons.mp hs).1 j (List.mem_cons_self j rest)
  have hdpos : 0 < (betas.map (fun b => |b - beta|)).getD i 0
      + (betas.map (fun b => |b - beta|)).getD j 0 := by
    rcases lt_or_eq_of_le (add_nonneg hd1nn hd2nn) with h | h
    · exact h
    · exfalso
      have h1 : (betas.map (fun b => |b - beta|)).getD i 0 = 0 := by linarith
      have h2 : (betas.map (fun b => |b - beta|)).getD j 0 = 0 := by linarith
      rw [hgi, abs_eq_zero, sub_eq_zero] at h1
      rw [hgj, abs_eq_zero, sub_eq_zero] at h2
      have : betas.get ⟨i, hilt⟩ = betas.get ⟨j, hjlt⟩ := by rw [h1, h2]
      simp only [List.get_eq_getElem] at this
      exact hij (hnd.getElem_inj_iff.mp this)
  have hw1 : (blendWeights betas beta i j).1
      = (betas.map (fun b => |b - beta|)).getD j 0
        / ((betas.map (fun b => |b - beta|)).getD i 0
          + (betas.map (fun b => |b - beta|)).getD j 0) := rfl
  have hw2 : (blendWeights betas beta i j).2
      = (betas.map (fun b => |b - beta|)).getD i 0
        / ((betas.map (fun b => |b - beta|)).getD i 0
          + (betas.map (fun b => |b - beta|)).getD j 0) := rfl
  have hba : blendApply betas functions beta x =
      some ((blendWeights betas beta i j).1 * (functions.getD i (fun _ => 0)) x
          + (blendWeights betas beta i j).2
            * (functions.getD j (fun _ => 0)) x) := by
    simp only [blendApply, beta_interp, hsort, Option.map_some']
  refine ⟨?_, ?_, ?_, ?_, hba, ?_⟩
  · rw [hw1]
    exact div_nonneg hd2nn (le_of_lt hdpos)
  · rw [hw2]
    exact div_nonneg hd1nn (le_of_lt hdpos)
  · rw [hw1, hw2, div_add_div_same, add_comm]
    exact div_self (ne_of_gt hdpos)
  · rw [hw1, hw2]
    exact (div_le_div_right hdpos).mpr hdle
  · intro hib
    have hd1z : (betas.map (fun b => |b - beta|)).getD i 0 = 0 := by
      rw [hgi]
      rw [List.getD_eq_getElem _ _ hilt] at hib
      simp only [List.get_eq_getElem, hib, sub_self, abs_zero]
    have hd2pos : 0 < (betas.map (fun b => |b - beta|)).getD j 0 := by
      rw [hd1z] at hdpos
      linarith
    rw [hba, hw1, hw2, hd1z]
    congr 1
    rw [zero_add, div_self (ne_of_gt hd2pos), zero_div]
    ring

/-- Witness for C6 at a concrete input: tables at `beta = 1` and `beta = 3`,
query `beta = 1` (an exact match for table 0), evaluation point `x = 5`. -/
theorem c6_blend_weights_witness :
    (([1, 3] : List ℚ).Nodup ∧
      argsort (([1, 3] : List ℚ).map (fun b => |b - 1|)) = [0, 1]) ∧
    (0 ≤ (blendWeights [1, 3] 1 0 1).1 ∧
     0 ≤ (blendWeights [1, 3] 1 0 1).2 ∧
     (blendWeights [1, 3] 1 0 1).1 + (blendWeights [1, 3] 1 0 1).2 = 1 ∧
     (blendWeights [1, 3] 1 0 1).2 ≤ (blendWeights [1, 3] 1 0 1).1 ∧
     blendApply [1, 3] [fun q => q + 1, fun q => 2 * q] 1 5 =
       some ((blendWeights [1, 3] 1 0 1).1
            * (([fun q => q + 1, fun q => 2 * q] : List (ℚ → ℚ)).getD 0
                (fun _ => 0)) 5
          + (blendWeights [1, 3] 1 0 1).2
            * (([fun q => q + 1, fun q => 2 * q] : List (ℚ → ℚ)).getD 1
                (fun _ => 0)) 5) ∧
     (([1, 3] : List ℚ).getD 0 0 = 1 →
       blendApply [1, 3] [fun q => q + 1, fun q => 2 * q] 1 5
         = some ((([fun q => q + 1, fun q => 2 * q] : List (ℚ → ℚ)).getD 0
             (fun _ => 0)) 5))) :=
  ⟨⟨by decide, by
      norm_num [argsort, List.insertionSort, List.orderedInsert,
        List.range_succ, List.getD]⟩,
    c6_blend_weights [1, 3] [fun q => q + 1, fun q => 2 * q] 1 5 0 1 []
      (by decide)
      (by norm_num [argsort, List.insertionSort, List.orderedInsert,
        List.range_succ, List.getD])⟩

/-- C9: a successful `remove_fragment_record` never changes the length of
`sfindices` (no boundary entry is deleted); it rewrites `sfindices` to the
prefix before the located boundary `i` followed by the suffix from `i` on
decremented by one; it pops exactly one entry from the owning star's
(`star = i - 1`) trajectory lists and leaves every other star's lists
unchanged; and when the removed fragment was the star's last remaining one
(boundary exactly one above its predecessor), the boundary entry remains
present and becomes equal to its predecessor. -/
theorem c9_remove_record_frame (s s' : RebState) (pi i : Nat) (hi1 : 1 ≤ i)
    (hfind : s.sfindices.findIdx? (fun v => decide ((pi : Int) ≤ v)) = some i)
    (hrem : remove_fragment_record s pi = some s') :
    s'.sfindices.length = s.sfindices.length ∧
    s'.sfindices = s.sfindices.take i ++ (s.sfindices.drop i).map (· - 1) ∧
    ((s'.posx.getD (i - 1) []).length + 1 = (s.posx.getD (i - 1) []).length ∧
     (s'.posy.getD (i - 1) []).length + 1 = (s.posy.getD (i - 1) []).length ∧
     (s'.posz.getD (i - 1) []).length + 1 = (s.posz.getD (i - 1) []).length) ∧
    (∀ jj : Nat, jj ≠ i - 1 →
      s'.posx.getD jj [] = s.posx.getD jj [] ∧
      s'.posy.getD jj [] = s.posy.getD jj [] ∧
      s'.posz.getD jj [] = s.posz.getD jj []) ∧
    (s.sfindices.getD i 0 = s.sfindices.getD (i - 1) 0 + 1 →
      s'.sfindices.getD i 0 = s'.sfindices.getD (i - 1) 0) := by
  obtain ⟨i2, prev, px, py, pz, hfi2, hpg, hmx, hmy, hmz, rfl⟩ :=
    remove_fragment_record_eq_some hrem
  have hii : i2 = i := Option.some.inj (hfi2.symm.trans hfind)
  rw [hii] at hpg hmx hmy hmz ⊢
  have hib : i < s.sfindices.length := findIdx?_bound hfind
  have hcast : ((i : Int) - 1) = ((i - 1 : Nat) : Int) := by omega
  rw [hcast] at hmx hmy hmz
  have key : ∀ (P P' : List (List (List ℚ))),
      pyModify P ((i - 1 : Nat) : Int)
        (fun l => pyPop l ((pi : Int) - (prev + 1))) = some P' →
      ((P'.getD (i - 1) []).length + 1 = (P.getD (i - 1) []).length ∧
       ∀ jj : Nat, jj ≠ i - 1 → P'.getD jj [] = P.getD jj []) := by
    intro P P' hm
    obtain ⟨a0, b0, hga, hpop, rfl⟩ := pyModify_eq_some_natCast hm
    obtain ⟨jn, hjn, rfl⟩ := pyPop_eq_some hpop
    obtain ⟨hblt, -⟩ := List.getElem?_eq_some_iff.mp hga
    constructor
    · have h1 : (P.set (i - 1) (a0.eraseIdx jn)).getD (i - 1) []
          = a0.eraseIdx jn := by
        rw [List.getD_eq_getElem?_getD, List.getElem?_set_self hblt]
        rfl
      have h2 : P.getD (i - 1) [] = a0 := by
        rw [List.getD_eq_getElem?_getD, hga]
        rfl
      rw [h1, h2, List.length_eraseIdx, if_pos hjn]
      omega
    · intro jj hjj
      rw [List.getD_eq_getElem?_getD, List.getD_eq_getElem?_getD,
        List.getElem?_set_ne (by omega : i - 1 ≠ jj)]
  obtain ⟨hlx, hfx⟩ := key s.posx px hmx
  obtain ⟨hly, hfy⟩ := key s.posy py hmy
  obtain ⟨hlz, hfz⟩ := key s.posz pz hmz
  have htakelen : (s.sfindices.take i).length = i := by
    rw [List.length_take]
    omega
  refine ⟨?_, rfl, ⟨hlx, hly, hlz⟩, ?_, ?_⟩
  · show (s.sfindices.take i ++ (s.sfindices.drop i).map (· - 1)).length
      = s.sfindices.length
    simp only [List.length_append, List.length_take, List.length_map,
      List.length_drop]
    omega
  · intro jj hjj
    exact ⟨hfx jj hjj, hfy jj hjj, hfz jj hjj⟩
  · intro hstep
    have e1 : (s.sfindices.take i ++ (s.sfindices.drop i).map (· - 1)).getD
        (i - 1) 0 = s.sfindices.getD (i - 1) 0 := by
      rw [List.getD_eq_getElem?_getD, List.getElem?_append,
        if_pos (by rw [htakelen]; omega), List.getElem?_take,
        if_pos (by omega : i - 1 < i), ← List.getD_eq_getElem?_getD]
    have e2 : (s.sfindices.take i ++ (s.sfindices.drop i).map (· - 1)).getD
        i 0 = s.sfindices.getD i 0 - 1 := by
      rw [List.getD_eq_getElem?_getD, List.getElem?_append,
        if_neg (by rw [htakelen]; omega), htakelen, Nat.sub_self,
        List.getElem?_map, List.getElem?_drop, Nat.add_zero,
        List.getElem?_eq_getElem hib]
      rw [List.getD_eq_getElem _ _ hib]
      rfl
    show (s.sfindices.take i ++ (s.sfindices.drop i).map (· - 1)).getD i 0
      = (s.sfindices.take i ++ (s.sfindices.drop i).map (· - 1)).getD (i - 1) 0
    rw [e1, e2]
    omega

/-- Witness for C9 at a concrete input: a state with one star owning one
fragment; removing it keeps both boundary entries, making them equal. -/
theorem c9_remove_record_frame_witness :
    (1 ≤ 1 ∧
     exampleState.sfindices.findIdx? (fun v => decide ((1 : Int) ≤ v))
        = some 1 ∧
     remove_fragment_record exampleState 1 = some exampleState') ∧
    (exampleState'.sfindices.length = exampleState.sfindices.length ∧
     exampleState'.sfindices = exampleState.sfindices.take 1
        ++ (exampleState.sfindices.drop 1).map (· - 1) ∧
     ((exampleState'.posx.getD (1 - 1) []).length + 1
          = (exampleState.posx.getD (1 - 1) []).length ∧
      (exampleState'.posy.getD (1 - 1) []).length + 1
          = (exampleState.posy.getD (1 - 1) []).length ∧
      (exampleState'.posz.getD (1 - 1) []).length + 1
          = (exampleState.posz.getD (1 - 1) []).length) ∧
     (∀ jj : Nat, jj ≠ 1 - 1 →
       exampleState'.posx.getD jj [] = exampleState.posx.getD jj [] ∧
       exampleState'.posy.getD jj [] = exampleState.posy.getD jj [] ∧
       exampleState'.posz.getD jj [] = exampleState.posz.getD jj []) ∧
     (exampleState.sfindices.getD 1 0 = exampleState.sfindices.getD (1 - 1) 0 + 1 →
       exampleState'.sfindices.getD 1 0
          = exampleState'.sfindices.getD (1 - 1) 0)) :=
  ⟨⟨by decide, by decide, by decide⟩,
    c9_remove_record_frame exampleState exampleState' 1 1
      (by decide) (by decide) (by decide)⟩

/-- C1 counterexample: the claim says `sfindices` stays strictly increasing
under any sequence of disruptions and removals.  Disrupting one star with a
single fragment and then removing that fragment (paired with the
integrator-side removal, as in `sim_integrate`) yields `sfindices = [0, 0]`,
which is not strictly increasing. -/
theorem c1_strict_counterexample :
    (remove_particle (star_disrupt (initState 1 1) 1 1 1 [examplePart]) 1).map
        RebState.sfindices = some [0, 0] ∧
    ¬ ([0, 0] : List Int).Sorted (· < ·) :=
  ⟨by decide, by decide⟩

/-- C1 (amended): for every state reachable by `star_disrupt` events and
paired fragment removals, `sfindices` remains non-decreasing (strictness can
fail once a star loses all its fragments), its first entry stays `0` (the
central body), and its length is `1` plus the number of disruption events --
boundary entries are never deleted, so every star ever disrupted stays
represented. -/
theorem c1_sfindices_invariant {s : RebState} {k : Nat} (h : Reaches s k) :
    s.sfindices.Sorted (· ≤ ·) ∧ s.sfindices.head? = some 0 ∧
    s.sfindices.length = k + 1 := by
  obtain ⟨h1, h2, h3, h4, h5⟩ := reaches_invariant h
  exact ⟨h1, h2, h5⟩

/-- Witness for C1 (amended) at the initial state of a 2-star, 3-fragment
run. -/
theorem c1_sfindices_invariant_witness :
    Reaches (initState 2 3) 0 ∧
    ((initState 2 3).sfindices.Sorted (· ≤ ·) ∧
      (initState 2 3).sfindices.head? = some 0 ∧
      (initState 2 3).sfindices.length = 0 + 1) :=
  ⟨Reaches.init 2 3, c1_sfindices_invariant (Reaches.init 2 3)⟩

/-- C2 counterexample: the claim says disrupting a star with `Nfrag`
fragments and then removing all of them restores `sfindices` and the
trajectory-array shapes.  With `Nfrag = 2` on a fresh 1-star state, the
round trip ends with `sfindices = [0, 0]` (not the original `[0]`) and with
the star's trajectory array emptied (shape `[[]]`, not the preallocated
`[[0, 0]]` shape of two empty per-fragment lists). -/
theorem c2_roundtrip_counterexample :
    ((remove_particle (star_disrupt (initState 1 2) 1 1 1
          [examplePart, examplePart]) 1).bind
        (fun s => remove_particle s 1)).map
      (fun s => (s.sfindices, s.posx.map (fun st => st.map List.length)))
      = some ([0, 0], [[]]) ∧
    (initState 1 2).sfindices ≠ [0, 0] ∧
    (initState 1 2).posx.map (fun st => st.map List.length) ≠ [[]] :=
  ⟨by decide, by decide, by decide⟩

/-- C2 (amended): on any well-formed state (sorted boundaries whose last
entry is `reb_sim.N - 1`, and room for the new star's fragments in the
preallocated trajectory lists), disrupting a star with `Nfrag = frags.length`
fragments and then removing all `Nfrag` of them (each time the paired removal
at the star's first particle index) restores the integrator's particle list,
but does NOT restore the bookkeeping: every pre-existing `sfindices` entry is
unchanged yet one extra boundary entry equal to the previous last entry
remains appended, and the new star's preallocated trajectory lists lose
`Nfrag` leading entries; the per-star attribute lists keep their appended
draws. -/
theorem c2_roundtrip_amended (s : RebState) (m_star r_star r_t : ℚ)
    (frags : List Particle)
    (hsort : s.sfindices.Sorted (· ≤ ·))
    (hlast : s.sfindices.getLast? = some ((s.particles.length : Int) - 1))
    (hx : s.sfindices.length - 1 < s.posx.length)
    (hy : s.sfindices.length - 1 < s.posy.length)
    (hz : s.sfindices.length - 1 < s.posz.length)
    (hfx : frags.length ≤ (s.posx.getD (s.sfindices.length - 1) []).length)
    (hfy : frags.length ≤ (s.posy.getD (s.sfindices.length - 1) []).length)
    (hfz : frags.length ≤ (s.posz.getD (s.sfindices.length - 1) []).length) :
    removeIter s.particles.length (star_disrupt s m_star r_star r_t frags)
        frags.length
      = some { star_disrupt s m_star r_star r_t frags with
          particles := s.particles
          sfindices := s.sfindices ++ [(s.particles.length : Int) - 1]
          posx := s.posx.set (s.sfindices.length - 1)
            ((s.posx.getD (s.sfindices.length - 1) []).drop frags.length)
          posy := s.posy.set (s.sfindices.length - 1)
            ((s.posy.getD (s.sfindices.length - 1) []).drop frags.length)
          posz := s.posz.set (s.sfindices.length - 1)
            ((s.posz.getD (s.sfindices.length - 1) []).drop frags.length) } := by
  have h0 := @removeIter_mkMid s m_star r_star r_t frags hsort hlast hx hy hz
    hfx hfy hfz frags.length 0 (by omega)
  rw [mkMid_zero, Nat.zero_add] at h0
  rw [h0]
  refine congrArg some ?_
  show ({ star_disrupt s m_star r_star r_t frags with
      particles := s.particles ++ frags.drop frags.length
      sfindices := s.sfindices
        ++ [(s.particles.length : Int)
            + ((frags.length - frags.length : Nat) : Int) - 1]
      posx := s.posx.set (s.sfindices.length - 1)
        ((s.posx.getD (s.sfindices.length - 1) []).drop frags.length)
      posy := s.posy.set (s.sfindices.length - 1)
        ((s.posy.getD (s.sfindices.length - 1) []).drop frags.length)
      posz := s.posz.set (s.sfindices.length - 1)
        ((s.posz.getD (s.sfindices.length - 1) []).drop frags.length) }
      : RebState) = _
  refine rebstate_update5_congr ?_ ?_ rfl rfl rfl
  · rw [List.drop_length, List.append_nil]
  · congr 2
    omega

/-- Witness for C2 (amended) on a fresh 1-star, 2-fragment state. -/
theorem c2_roundtrip_witness :
    ((initState 1 2).sfindices.Sorted (· ≤ ·) ∧
     (initState 1 2).sfindices.getLast?
        = some (((initState 1 2).particles.length : Int) - 1) ∧
     (initState 1 2).sfindices.length - 1 < (initState 1 2).posx.length ∧
     (initState 1 2).sfindices.length - 1 < (initState 1 2).posy.length ∧
     (initState 1 2).sfindices.length - 1 < (initState 1 2).posz.length ∧
     ([examplePart, examplePart].length
        ≤ ((initState 1 2).posx.getD ((initState 1 2).sfindices.length - 1)
            []).length) ∧
     ([examplePart, examplePart].length
        ≤ ((initState 1 2).posy.getD ((initState 1 2).sfindices.length - 1)
            []).length) ∧
     ([examplePart, examplePart].length
        ≤ ((initState 1 2).posz.getD ((initState 1 2).sfindices.length - 1)
            []).length)) ∧
    removeIter (initState 1 2).particles.length
        (star_disrupt (initState 1 2) 1 1 1 [examplePart, examplePart])
        [examplePart, examplePart].length
      = some { star_disrupt (initState 1 2) 1 1 1 [examplePart, examplePart] with
          particles := (initState 1 2).particles
          sfindices := (initState 1 2).sfindices
            ++ [((initState 1 2).particles.length : Int) - 1]
          posx := (initState 1 2).posx.set ((initState 1 2).sfindices.length - 1)
            (((initState 1 2).posx.getD ((initState 1 2).sfindices.length - 1)
                []).drop [examplePart, examplePart].length)
          posy := (initState 1 2).posy.set ((initState 1 2).sfindices.length - 1)
            (((initState 1 2).posy.getD ((initState 1 2).sfindices.length - 1)
                []).drop [examplePart, examplePart].length)
          posz := (initState 1 2).posz.set ((initState 1 2).sfindices.length - 1)
            (((initState 1 2).posz.getD ((initState 1 2).sfindices.length - 1)
                []).drop [examplePart, examplePart].length) } :=
  ⟨⟨by decide, by decide, by decide, by decide, by decide, by decide,
      by decide, by decide⟩,
    c2_roundtrip_amended (initState 1 2) 1 1 1 [examplePart, examplePart]
      (by decide) (by decide) (by decide) (by decide) (by decide)
      (by decide) (by decide) (by decide)⟩

end FragRebSim
